import Mathlib

/-!
Verification development for the ClimbMCP climbing-resources server
(src/index.js).  JavaScript strings are modelled shallowly as lists of
characters; each regular-expression replacement pass of the source is
translated into an explicit left-to-right scanner with the same
non-overlapping leftmost-match semantics that String.prototype.replace
with a global regex has.  The scanners carry a skip counter: after a
match of n characters is consumed and its replacement emitted, the
scanner silently passes over the remaining n-1 matched characters, which
keeps every definition structurally recursive (and so executable by the
kernel).  Character classes are the ASCII classes the source regexes use.
-/

namespace ClimbMCP

/-- JS strings, modelled as lists of characters. -/
abbrev Str := List Char

/-- The `\s` character class of the source regexes (ASCII whitespace). -/
def isWS (c : Char) : Bool :=
  c == ' ' || c == '\t' || c == '\n' || c == '\r' || c == '\x0b' || c == '\x0c'

/-- The `[a-z]` character class. -/
def isLowerAlpha (c : Char) : Bool := 'a' ≤ c && c ≤ 'z'

/-- The `[A-Z]` character class. -/
def isUpperAlpha (c : Char) : Bool := 'A' ≤ c && c ≤ 'Z'

/-- The `[a-zA-Z]` character class. -/
def isAlpha (c : Char) : Bool := isLowerAlpha c || isUpperAlpha c

/-- The `[0-9]` character class. -/
def isDigit (c : Char) : Bool := '0' ≤ c && c ≤ '9'

/-- The `[.,:;!?]` character class of the punctuation patterns. -/
def isPunct (c : Char) : Bool :=
  c == '.' || c == ',' || c == ':' || c == ';' || c == '!' || c == '?'

/-- JS `String.prototype.toLowerCase` (ASCII part, which is all the source needs). -/
def toLowerStr (s : Str) : Str := s.map Char.toLower

/-- Parse `\s+` followed by `[a-z]`: at least one whitespace character, then a
lowercase letter; returns the letter and the remainder.  Greedy whitespace
needs no backtracking because `\s` and `[a-z]` are disjoint. -/
def parseWsLower : Str → Option (Char × Str)
  | [] => none
  | c :: rest =>
    if isWS c then
      match rest.dropWhile isWS with
      | d :: r => if isLowerAlpha d then some (d, r) else none
      | [] => none
    else none

/-- Step 1 of reconstructText: `/([a-z])\s+([a-z])\s+([a-z])/g`, each match
replaced by itself with all whitespace removed (the three letters joined).
The first argument is the skip counter for already-consumed match characters. -/
def mergeSpacedTriplesGo : Nat → Str → Str
  | _, [] => []
  | Nat.succ n, _ :: rest => mergeSpacedTriplesGo n rest
  | 0, c :: rest =>
    if isLowerAlpha c then
      match parseWsLower rest with
      | some (d, r1) =>
        match parseWsLower r1 with
        | some (e, r2) => c :: d :: e :: mergeSpacedTriplesGo (rest.length - r2.length) rest
        | none => c :: mergeSpacedTriplesGo 0 rest
      | none => c :: mergeSpacedTriplesGo 0 rest
    else c :: mergeSpacedTriplesGo 0 rest

/-- Step 1 scanner, started with nothing to skip. -/
def mergeSpacedTriples (s : Str) : Str := mergeSpacedTriplesGo 0 s

/-- Step 2 of reconstructText: `/([a-z])\s+([a-z])/g` replaced with `$1$2`. -/
def mergeSpacedPairsGo : Nat → Str → Str
  | _, [] => []
  | Nat.succ n, _ :: rest => mergeSpacedPairsGo n rest
  | 0, c :: rest =>
    if isLowerAlpha c then
      match parseWsLower rest with
      | some (d, r1) => c :: d :: mergeSpacedPairsGo (rest.length - r1.length) rest
      | none => c :: mergeSpacedPairsGo 0 rest
    else c :: mergeSpacedPairsGo 0 rest

/-- Step 2 scanner, started with nothing to skip. -/
def mergeSpacedPairs (s : Str) : Str := mergeSpacedPairsGo 0 s

/-- Step 3 of reconstructText: `/([a-z])\s+([a-z])\s+([a-z])\s+([a-z])\s+([a-z])/g`,
each match replaced by itself with all whitespace removed. -/
def mergeSpacedQuintsGo : Nat → Str → Str
  | _, [] => []
  | Nat.succ n, _ :: rest => mergeSpacedQuintsGo n rest
  | 0, c :: rest =>
    if isLowerAlpha c then
      match parseWsLower rest with
      | some (d, r1) =>
        match parseWsLower r1 with
        | some (e, r2) =>
          match parseWsLower r2 with
          | some (f, r3) =>
            match parseWsLower r3 with
            | some (g, r4) =>
              c :: d :: e :: f :: g :: mergeSpacedQuintsGo (rest.length - r4.length) rest
            | none => c :: mergeSpacedQuintsGo 0 rest
          | none => c :: mergeSpacedQuintsGo 0 rest
        | none => c :: mergeSpacedQuintsGo 0 rest
      | none => c :: mergeSpacedQuintsGo 0 rest
    else c :: mergeSpacedQuintsGo 0 rest

/-- Step 3 scanner, started with nothing to skip. -/
def mergeSpacedQuints (s : Str) : Str := mergeSpacedQuintsGo 0 s

/-- One two-character boundary pattern from `wordBoundaryPatterns`: a character
of class `p` followed by one of class `q`; `sep = true` inserts a space between
them (replacement `$1 $2`), `sep = false` reproduces the pair (replacement
`$1$2`).  Scanning continues after the two matched characters. -/
def pairPass (p q : Char → Bool) (sep : Bool) : Str → Str
  | [] => []
  | [c] => [c]
  | c :: d :: rest =>
    if p c && q d then
      if sep then c :: ' ' :: d :: pairPass p q sep rest
      else c :: d :: pairPass p q sep rest
    else c :: pairPass p q sep (d :: rest)

/-- The alternation `and|the|of|to|in|for|with|are|can|will|may`, in source order.
The alternatives are pairwise incompatible as prefixes, so JS alternation order
and backtracking are immaterial: at most one can match at a given position. -/
def shortWords : List Str :=
  ["and", "the", "of", "to", "in", "for", "with", "are", "can", "will", "may"].map String.data

/-- The alternation `ing|tion|ed|er|ly|ness`, in source order (also pairwise
incompatible as prefixes). -/
def suffixWords : List Str :=
  ["ing", "tion", "ed", "er", "ly", "ness"].map String.data

/-- Step 4 pattern `/([a-z])(and|the|of|to|in|for|with|are|can|will|may)/g`
replaced with `$1 $2`. -/
def spaceBeforeShortWordsGo : Nat → Str → Str
  | _, [] => []
  | Nat.succ n, _ :: rest => spaceBeforeShortWordsGo n rest
  | 0, c :: rest =>
    if isLowerAlpha c then
      match shortWords.find? (fun w => w.isPrefixOf rest) with
      | some w => c :: ' ' :: (w ++ spaceBeforeShortWordsGo w.length rest)
      | none => c :: spaceBeforeShortWordsGo 0 rest
    else c :: spaceBeforeShortWordsGo 0 rest

/-- Step 4 short-word scanner, started with nothing to skip. -/
def spaceBeforeShortWords (s : Str) : Str := spaceBeforeShortWordsGo 0 s

/-- Step 4 pattern `/(ing|tion|ed|er|ly|ness)([a-z])/g` replaced with `$1 $2`. -/
def spaceAfterSuffixesGo : Nat → Str → Str
  | _, [] => []
  | Nat.succ n, _ :: rest => spaceAfterSuffixesGo n rest
  | 0, c :: rest =>
    match suffixWords.find? (fun w => w.isPrefixOf (c :: rest)) with
    | some w =>
      match (c :: rest).drop w.length with
      | d :: _ =>
        if isLowerAlpha d then w ++ (' ' :: d :: spaceAfterSuffixesGo w.length rest)
        else c :: spaceAfterSuffixesGo 0 rest
      | [] => c :: spaceAfterSuffixesGo 0 rest
    | none => c :: spaceAfterSuffixesGo 0 rest

/-- Step 4 suffix scanner, started with nothing to skip. -/
def spaceAfterSuffixes (s : Str) : Str := spaceAfterSuffixesGo 0 s

/-- Step 4 pattern `/([a-z])([A-Z])/g` replaced with `$1 $2`. -/
def spaceLowerUpper : Str → Str := pairPass isLowerAlpha isUpperAlpha true

/-- Step 4 pattern `/([a-zA-Z])([0-9])/g` replaced with `$1 $2`. -/
def spaceLetterDigit : Str → Str := pairPass isAlpha isDigit true

/-- Step 4 pattern `/([0-9])([a-zA-Z])/g` replaced with `$1 $2`. -/
def spaceDigitLetter : Str → Str := pairPass isDigit isAlpha true

/-- Step 4 pattern `/([a-zA-Z])([.,:;!?])/g` replaced with `$1$2` (the
replacement reproduces the match, so the pass rewrites nothing). -/
def punctTightPass : Str → Str := pairPass isAlpha isPunct false

/-- Step 4 pattern `/([.,:;!?])([a-zA-Z])/g` replaced with `$1 $2`. -/
def spaceAfterPunct : Str → Str := pairPass isPunct isAlpha true

/-- Case-insensitive literal prefix test, for the source's `gi` regexes whose
pattern literals are lowercase. -/
def ciIsPrefixOf (pat s : Str) : Bool := pat.isPrefixOf (toLowerStr s)

/-- Whether the list starts with the given character, case-insensitively (the
optional `s?` of patterns like `/anchors?/gi`). -/
def matchesCIAt (ch : Char) (l : Str) : Bool :=
  match l with
  | d :: _ => Char.toLower d == ch
  | [] => false

/-- Global case-insensitive literal replacement `/key(s?)/gi → rep`: scan left
to right; at a match consume the key (plus a trailing `s`/`S` when `optS`),
emit `rep`, and continue after the match.  The `key ≠ []` guard only rules out
the empty pattern; every key the source uses is a nonempty literal. -/
def applyFixGo (key rep : Str) (optS : Bool) : Nat → Str → Str
  | _, [] => []
  | Nat.succ n, _ :: rest => applyFixGo key rep optS n rest
  | 0, c :: rest =>
    if key ≠ [] ∧ ciIsPrefixOf key (c :: rest) = true then
      rep ++ applyFixGo key rep optS
        (key.length + (if optS && matchesCIAt 's' ((c :: rest).drop key.length) then 1 else 0) - 1)
        rest
    else c :: applyFixGo key rep optS 0 rest

/-- Replacement scanner for one `gi` literal pattern, started with nothing to skip. -/
def applyFix (key rep : Str) (optS : Bool) (s : Str) : Str := applyFixGo key rep optS 0 s

/-- The `climbingFixes` table of step 5: pattern key, whether the pattern ends
in `s?`, and the replacement, in source order. -/
def climbingFixes : List (Str × Bool × Str) :=
  [ ("placement".data, true, "placement".data),
    ("anchor".data, true, "anchor".data),
    ("protection".data, false, "protection".data),
    ("carabiner".data, true, "carabiner".data),
    ("generally".data, false, "generally".data),
    ("stronger".data, false, "stronger".data),
    ("smaller".data, false, "smaller".data),
    ("larger".data, false, "larger".data),
    ("important".data, false, "important".data) ]

/-- Step 5 of reconstructText: apply the `climbingFixes` replacements in order. -/
def applyClimbingFixes (s : Str) : Str :=
  climbingFixes.foldl (fun t kv => applyFix kv.1 kv.2.2 kv.2.1 t) s

/-- Step 6 pattern `/\s{2,}/g → ' '`: every maximal whitespace run of length at
least two becomes a single space. -/
def collapseWsRunsGo : Nat → Str → Str
  | _, [] => []
  | Nat.succ n, _ :: rest => collapseWsRunsGo n rest
  | 0, c :: rest =>
    if isWS c then
      match rest with
      | d :: _ =>
        if isWS d then ' ' :: collapseWsRunsGo (rest.takeWhile isWS).length rest
        else c :: collapseWsRunsGo 0 rest
      | [] => [c]
    else c :: collapseWsRunsGo 0 rest

/-- Step 6 whitespace-run scanner, started with nothing to skip. -/
def collapseWsRuns (s : Str) : Str := collapseWsRunsGo 0 s

/-- Step 6 pattern `/\s*\n\s*/g → '\n'`: every maximal whitespace run that
contains a newline becomes a single newline (a run without a newline cannot
host a match, since `\s*` cannot extend past the run). -/
def collapseNewlineRunsGo : Nat → Str → Str
  | _, [] => []
  | Nat.succ n, _ :: rest => collapseNewlineRunsGo n rest
  | 0, c :: rest =>
    if isWS c then
      (if (c :: rest.takeWhile isWS).contains '\n' then ['\n']
       else c :: rest.takeWhile isWS) ++ collapseNewlineRunsGo (rest.takeWhile isWS).length rest
    else c :: collapseNewlineRunsGo 0 rest

/-- Step 6 newline-run scanner, started with nothing to skip. -/
def collapseNewlineRuns (s : Str) : Str := collapseNewlineRunsGo 0 s

/-- Step 6 pattern `/\n{3,}/g → '\n\n'`: every maximal newline run of length at
least three becomes two newlines. -/
def capNewlineRunsGo : Nat → Str → Str
  | _, [] => []
  | Nat.succ n, _ :: rest => capNewlineRunsGo n rest
  | 0, c :: rest =>
    if c == '\n' then
      (if 3 ≤ (c :: rest.takeWhile (· == '\n')).length then ['\n', '\n']
       else c :: rest.takeWhile (· == '\n'))
        ++ capNewlineRunsGo (rest.takeWhile (· == '\n')).length rest
    else c :: capNewlineRunsGo 0 rest

/-- Step 6 blank-line-capping scanner, started with nothing to skip. -/
def capNewlineRuns (s : Str) : Str := capNewlineRunsGo 0 s

/-- JS `String.prototype.trim` (ASCII whitespace model). -/
def jsTrim (s : Str) : Str :=
  ((s.dropWhile isWS).reverse.dropWhile isWS).reverse

/-- The `commonWordsMap` of step 7, in source (insertion) order. -/
def commonWordsMap : List (Str × Str) :=
  [ ("gene rally".data, "generally".data),
    ("place ment".data, "placement".data),
    ("place ments".data, "placements".data),
    ("import ant".data, "important".data),
    ("strong er".data, "stronger".data),
    ("small er".data, "smaller".data),
    ("larg er".data, "larger".data),
    ("fig ure".data, "figure".data),
    ("anch or".data, "anchor".data),
    ("anch ors".data, "anchors".data),
    ("protect ion".data, "protection".data),
    ("cara bin er".data, "carabiner".data),
    ("cara bin ers".data, "carabiners".data) ]

/-- Step 7 of reconstructText: the case-insensitive literal substitutions of
`commonWordsMap`, applied in order. -/
def applyCommonWordFixes (s : Str) : Str :=
  commonWordsMap.foldl (fun t kv => applyFix kv.1 kv.2 false t) s

/-- `reconstructText` from src/index.js lines 201-291: the empty-input guard,
then steps 1-7 in source order. -/
def reconstructText (rawText : Str) : Str :=
  if rawText = [] then []
  else
    let t := mergeSpacedTriples rawText
    let t := mergeSpacedPairs t
    let t := mergeSpacedQuints t
    let t := spaceLowerUpper t
    let t := spaceBeforeShortWords t
    let t := spaceAfterSuffixes t
    let t := spaceLetterDigit t
    let t := spaceDigitLetter t
    let t := punctTightPass t
    let t := spaceAfterPunct t
    let t := applyClimbingFixes t
    let t := collapseWsRuns t
    let t := collapseNewlineRuns t
    let t := capNewlineRuns t
    let t := jsTrim t
    applyCommonWordFixes t

/-- `EXTRACTION_CONFIG.CHUNK_SIZE`. -/
def CHUNK_SIZE : Nat := 150000

/-- `EXTRACTION_CONFIG.CONTEXT_WINDOW`. -/
def CONTEXT_WINDOW : Nat := 500

/-- JS `String.prototype.indexOf` for a literal pattern: the least index at
which the pattern occurs, if any. -/
def jsIndexOf (s pat : Str) : Option Nat :=
  if pat.isPrefixOf s then some 0
  else
    match s with
    | [] => none
    | _ :: r => (jsIndexOf r pat).map (· + 1)

/-- JS `String.prototype.includes` for a literal pattern. -/
def jsIncludes (s pat : Str) : Bool := (jsIndexOf s pat).isSome

/-- The `climbingTerms` vocabulary of `extractTopics`, in source order. -/
def climbingTerms : List Str :=
  ["anchor", "anchors", "belay", "belaying", "rappel", "rappelling",
   "knot", "knots", "rope", "carabiner", "cam", "nut", "protection",
   "pitch", "multipitch", "trad", "traditional", "sport", "lead",
   "follow", "climbing", "technique", "safety", "SERENE", "equalization"].map String.data

/-- `extractTopics`: the climbing terms that occur as substrings of the
lower-cased text, in vocabulary order, without duplicates. -/
def extractTopics (text : Str) : List Str :=
  climbingTerms.filter (fun term => jsIncludes (toLowerStr text) term)

/-- JS `x || d` for a number that may be absent: both `undefined` and `0` are
falsy and fall through to the default. -/
def orFalsy (x : Option Nat) (d : Nat) : Nat :=
  match x with
  | none => d
  | some 0 => d
  | some p => p

/-- Page data: the `pageData` object, as a list of (page number, page text)
pairs in the object's key order. -/
abbrev PageData := List (Nat × Str)

/-- The numeric key sort `Object.keys(pageData).sort((a, b) => parseInt(a) - parseInt(b))`,
modelled by a stable sort on the page number. -/
def sortPagesByNum (pageData : PageData) : PageData :=
  List.insertionSort (fun a b => a.1 ≤ b.1) pageData

/-- Walk the sorted page texts, giving each page `text.length + 1` consecutive
character positions (the `+ 1` is the source's allowance for the line break
between pages); return the page owning the given position, if the walk
reaches it. -/
def pageOfPos : PageData → Nat → Option Nat
  | [], _ => none
  | (p, s) :: rest, pos =>
    if pos < s.length + 1 then some p else pageOfPos rest (pos - (s.length + 1))

/-- `createCharToPageMap` as a lookup function: the source's walk stops at
`fullText.length`, so positions at or beyond it are unmapped. -/
def createCharToPageMap (fullTextLen : Nat) (pageData : PageData) (pos : Nat) : Option Nat :=
  if pos < fullTextLen then pageOfPos (sortPagesByNum pageData) pos else none

/-- A text chunk as produced by `createPageAwareChunks`.  The presentation-only
fields `pageReferences` and `sectionHeading` (consumed nowhere but in rendered
output) are not modelled. -/
structure Chunk where
  id : Nat
  text : Str
  startChar : Nat
  endChar : Nat
  startPage : Nat
  endPage : Nat
  topics : List Str
deriving Repr, DecidableEq

/-- The chunking loop `for (let i = 0; i < fullText.length; i += chunkSize)`.
The fuel argument bounds the number of iterations (any fuel at least the
number of remaining chunks gives the loop's behaviour; the wrapper passes
`fullText.length + 1`, which always suffices since the stride is positive). -/
def createPageAwareChunksGo (fullText : Str) (pageData : PageData) (totalPages : Nat) :
    Nat → Nat → Nat → List Chunk
  | 0, _, _ => []
  | Nat.succ fuel, i, id =>
    if i < fullText.length then
      { id := id
        text := (fullText.drop i).take CHUNK_SIZE
        startChar := i
        endChar := min (i + CHUNK_SIZE) fullText.length
        startPage := orFalsy (createCharToPageMap fullText.length pageData i) 1
        endPage := orFalsy
          (createCharToPageMap fullText.length pageData (min (i + CHUNK_SIZE) fullText.length - 1))
          totalPages
        topics := extractTopics ((fullText.drop i).take CHUNK_SIZE) }
        :: createPageAwareChunksGo fullText pageData totalPages fuel (i + CHUNK_SIZE) (id + 1)
    else []

/-- `createPageAwareChunks` from src/index.js lines 468-503 (minus the
unmodelled presentation fields): fixed-size chunks with `substring` texts,
`endChar = min(i + chunkSize, length)`, page range via the char-to-page map
with the `|| 1` and `|| totalPages` fallbacks, and sequential ids. -/
def createPageAwareChunks (fullText : Str) (pageData : PageData) (totalPages : Nat) : List Chunk :=
  createPageAwareChunksGo fullText pageData totalPages (fullText.length + 1) 0 0

/-- The result object shape that the extraction methods resolve with.
`totalPages` is optional because the PdfReader error path resolves an object
carrying only `text` and `pageData`. -/
structure ExtractionResult where
  text : Str
  pageData : PageData
  totalPages : Option Nat
deriving Repr, DecidableEq

/-- What `extractTextWithPDF2JSON` resolves: either a result object, or — on
`pdfParser_dataError` and on a `parseBuffer` throw — the bare string `''`,
which is a different JS shape from the result object. -/
inductive PDF2JSONOutcome where
  | result (r : ExtractionResult)
  | errorString
deriving Repr, DecidableEq

/-- The object resolved by the PdfReader error path:
`{ text: '', pageData: {} }` (no `totalPages`). -/
def pdfReaderErrorResult : ExtractionResult :=
  { text := [], pageData := [], totalPages := none }

/-- JS `array.join('\n')`. -/
def joinWithNewlineSep : List Str → Str
  | [] => []
  | [s] => s
  | s :: rest => s ++ '\n' :: joinWithNewlineSep rest

/-- End-of-document aggregation of `extractTextWithPdfReader`: pages sorted by
number, their texts joined with newlines and trimmed; `totalPages` is the page
count.  The per-page texts are whatever the parser accumulated. -/
def pdfReaderAggregate (pageText : PageData) : ExtractionResult :=
  { text := jsTrim (joinWithNewlineSep ((sortPagesByNum pageText).map Prod.snd))
    pageData := pageText
    totalPages := some (sortPagesByNum pageText).length }

/-- Data-ready aggregation of `extractTextWithPDF2JSON`: pages are numbered
`1..n` in order, `pageData` holds each page's trimmed text, `fullText`
accumulates each raw page text plus `'\n'`, and `reconstructText` is applied
to the accumulated text. -/
def pdf2jsonAggregate (rawPages : List Str) : ExtractionResult :=
  { text := reconstructText ((rawPages.map (fun p => p ++ ['\n'])).flatten)
    pageData := ((List.range rawPages.length).zip rawPages).map (fun pr => (pr.1 + 1, jsTrim pr.2))
    totalPages := some rawPages.length }

/-- Whether `comprehensiveExtractPDF` falls back to PDF2JSON:
`!extractionResult.text || extractionResult.text.length < 100`. -/
def usesFallback (primaryResult : ExtractionResult) : Bool :=
  primaryResult.text.isEmpty || primaryResult.text.length < 100

/-- The extraction value `comprehensiveExtractPDF` continues with, and whether
the secondary method was invoked for it. -/
def comprehensiveSelect (primaryResult : ExtractionResult) (secondaryOutcome : PDF2JSONOutcome) :
    PDF2JSONOutcome × Bool :=
  if usesFallback primaryResult then (secondaryOutcome, true)
  else (PDF2JSONOutcome.result primaryResult, false)

/-- The cached record built by `comprehensiveExtractPDF` (the `searchIndex`
field, consumed nowhere by the modelled operations, is not modelled). -/
structure ExtractedContent where
  text : Str
  totalPages : Option Nat
  pageData : PageData
  textChunks : List Chunk
deriving Repr, DecidableEq

/-- `comprehensiveExtractPDF` after both extraction attempts: destructure the
chosen value and build the cached record.  Destructuring the bare error
string leaves `fullText` undefined, so the following `fullText.length` access
raises a TypeError, which the outer catch rethrows as
`Comprehensive PDF extraction failed: ...`; that path is the error case here.
An absent `totalPages` is modelled as 0 in the chunk call (the claims never
consult `endPage` on that path). -/
def comprehensiveExtract (primaryResult : ExtractionResult) (secondaryOutcome : PDF2JSONOutcome) :
    Except Str ExtractedContent :=
  match (comprehensiveSelect primaryResult secondaryOutcome).1 with
  | PDF2JSONOutcome.errorString =>
      Except.error ("Comprehensive PDF extraction failed: Cannot read properties of undefined".data)
  | PDF2JSONOutcome.result r =>
      Except.ok
        { text := r.text
          totalPages := r.totalPages
          pageData := r.pageData
          textChunks := createPageAwareChunks r.text r.pageData (r.totalPages.getD 0) }

/-- A chunk as read back from a cached record by the query operations (only
the fields those operations consult). -/
structure CachedChunk where
  text : Str
  topics : List Str
deriving Repr, DecidableEq

/-- A chunk together with its query score (the ephemeral scored match). -/
structure ScoredMatch where
  text : Str
  topics : List Str
  score : Nat
deriving Repr, DecidableEq

/-- Non-overlapping left-to-right occurrence count:
`(text.match(new RegExp(word, 'g')) || []).length` for a word of `\w`
characters (which are all regex-literal).  Skip-counter scanner as above;
the `pat ≠ []` guard only rules out the empty pattern, which the tokenizer
never produces. -/
def countOccursGo (pat : Str) : Nat → Str → Nat
  | _, [] => 0
  | Nat.succ n, _ :: rest => countOccursGo pat n rest
  | 0, c :: rest =>
    if pat ≠ [] ∧ pat.isPrefixOf (c :: rest) = true then
      1 + countOccursGo pat (pat.length - 1) rest
    else countOccursGo pat 0 rest

/-- Occurrence-count scanner, started with nothing to skip. -/
def countOccurs (pat s : Str) : Nat := countOccursGo pat 0 s

/-- The chunk filter of `searchContent` (and, with the topic words, of
`getChapterSection`): some query word is a substring of the lower-cased chunk
text, or some chunk topic lower-cases to a query word. -/
def chunkMatchesQuery (queryWords : List Str) (chunk : CachedChunk) : Bool :=
  queryWords.any (fun w => jsIncludes (toLowerStr chunk.text) w)
    || chunk.topics.any (fun t => queryWords.contains (toLowerStr t))

/-- The per-chunk score of `searchContent` lines 1033-1049: the metadata seed,
plus 10 per regex-counted occurrence of each query word in the lower-cased
text, plus 20 per topic whose lower-casing equals a query word. -/
def chunkScore (metadataScore : Nat) (queryWords : List Str) (chunk : CachedChunk) : Nat :=
  metadataScore
    + (queryWords.map (fun w => countOccurs w (toLowerStr chunk.text) * 10)).sum
    + (chunk.topics.filter (fun t => queryWords.contains (toLowerStr t))).length * 20

/-- JS `array.join(', ')`. -/
def joinCommaSep : List Str → Str
  | [] => []
  | [s] => s
  | s :: rest => s ++ ',' :: ' ' :: joinCommaSep rest

/-- One chapter as `searchContent` sees it: its cached chunks, its metadata
relevance score, and its metadata keywords (used by the placeholder match). -/
structure ChapterInput where
  chunks : List CachedChunk
  metadataScore : Nat
  keywords : List Str
deriving Repr, DecidableEq

/-- One chapter entry of the `results` array (the fields the ranking logic
consults; `topMatches` is the source's `matches` field, renamed because
`matches` is a reserved word here). -/
structure ChapterResult where
  topMatches : List ScoredMatch
  metadataScore : Nat
deriving Repr, DecidableEq

/-- The JS stable sort `.sort((a, b) => b.score - a.score)`: descending by
score, ties in original order. -/
def sortMatchesDesc (l : List ScoredMatch) : List ScoredMatch :=
  List.insertionSort (fun a b => b.score ≤ a.score) l

/-- The placeholder match pushed when a chapter has no text matches but a
metadata score of at least 50. -/
def placeholderMatch (ci : ChapterInput) : ScoredMatch :=
  { text := "Chapter highly relevant based on keywords: ".data
      ++ (if ci.keywords = [] then "N/A".data else joinCommaSep ci.keywords)
    topics := ci.keywords
    score := ci.metadataScore }

/-- The scored, descending-sorted match list of one chapter, including the
metadata-only placeholder rule. -/
def scoredMatchList (queryWords : List Str) (ci : ChapterInput) : List ScoredMatch :=
  let scored := sortMatchesDesc
    ((ci.chunks.filter (chunkMatchesQuery queryWords)).map
      (fun c => { text := c.text, topics := c.topics
                  score := chunkScore ci.metadataScore queryWords c }))
  if scored.isEmpty && decide (50 ≤ ci.metadataScore) then [placeholderMatch ci] else scored

/-- The per-chapter branch of `searchContent` lines 1020-1075: a chapter
yields a result entry when it has chunk matches or a positive metadata score
and the scored list is nonempty; the entry keeps the top two matches. -/
def processChapter (queryWords : List Str) (ci : ChapterInput) : Option ChapterResult :=
  if (ci.chunks.filter (chunkMatchesQuery queryWords)).length > 0 ∨ ci.metadataScore > 0 then
    if (scoredMatchList queryWords ci).isEmpty then none
    else some { topMatches := (scoredMatchList queryWords ci).take 2
                metadataScore := ci.metadataScore }
  else none

/-- The per-book loop of `searchContent`: chapters are sorted descending by
metadata score, and when any chapter has a positive metadata score only those
chapters are searched. -/
def processBook (queryWords : List Str) (chapters : List ChapterInput) : List ChapterResult :=
  let sorted := List.insertionSort
    (fun a b : ChapterInput => b.metadataScore ≤ a.metadataScore) chapters
  let toSearch := if chapters.any (fun c => c.metadataScore > 0)
    then sorted.filter (fun c => c.metadataScore > 0) else sorted
  toSearch.filterMap (processChapter queryWords)

/-- `Math.max(...matches.map(m => m.score))`; the matches list of a pushed
result is never empty and its scores are nonnegative integers. -/
def bestScore (r : ChapterResult) : Nat := (r.topMatches.map ScoredMatch.score).foldl max 0

/-- The ranking tail of `searchContent` lines 1078-1109: collect results over
all books, sort descending by best match score (stable), render the first
`maxResults`. -/
def searchRank (queryWords : List Str) (books : List (List ChapterInput))
    (maxResults : Nat) : List ChapterResult :=
  (List.insertionSort (fun a b => bestScore b ≤ bestScore a)
    ((books.map (processBook queryWords)).flatten)).take maxResults

/-- `getContextSnippet` from src/index.js lines 1188-1207: fold the query
words through the best-match tracker (an index is kept when the tracker is 0
or the index is smaller), then window the text around the tracked index, or
return the leading window when the tracker finished at 0. -/
def getContextSnippet (text : Str) (queryWords : List Str) : Str :=
  let bestIndex := queryWords.foldl
    (fun acc w =>
      match jsIndexOf (toLowerStr text) w with
      | none => acc
      | some i => if acc = 0 ∨ i < acc then i else acc) 0
  if bestIndex = 0 then
    text.take CONTEXT_WINDOW ++ (if CONTEXT_WINDOW < text.length then "...".data else [])
  else
    let start := bestIndex - CONTEXT_WINDOW / 2
    let stop := min text.length (bestIndex + CONTEXT_WINDOW / 2)
    (if 0 < start then "...".data else [])
      ++ ((text.drop start).take (stop - start))
      ++ (if stop < text.length then "...".data else [])

/-- The snippet behaviour asserted by the claim, written from the claim's
words: find the earliest-occurring query word by string index; center the
500-character window there, clipped to the text, with an ellipsis at each
truncated end; with no occurrence at all, return the leading 500-character
window with a trailing ellipsis when the text is longer. -/
def contextSnippetClaimed (text : Str) (queryWords : List Str) : Str :=
  match queryWords.filterMap (fun w => jsIndexOf (toLowerStr text) w) with
  | [] => text.take CONTEXT_WINDOW ++ (if CONTEXT_WINDOW < text.length then "...".data else [])
  | i0 :: irest =>
    let earliest := irest.foldl min i0
    let start := earliest - CONTEXT_WINDOW / 2
    let stop := min text.length (earliest + CONTEXT_WINDOW / 2)
    (if 0 < start then "...".data else [])
      ++ ((text.drop start).take (stop - start))
      ++ (if stop < text.length then "...".data else [])

/-- The `contextSizes` lookup of `getChapterSection` with its `|| 2` default:
`{ brief: 1, detailed: 2, comprehensive: 3 }[contextLevel] || 2` (own-property
lookup; the prototype chain is not modelled). -/
def contextSizeOf (contextLevel : Str) : Nat :=
  if contextLevel = "brief".data then 1
  else if contextLevel = "detailed".data then 2
  else if contextLevel = "comprehensive".data then 3
  else 2

/-- The relevance filter of `getChapterSection` lines 1226-1230 (the same
predicate shape as the search filter, over the topic words). -/
def relevantChunksFor (topicWords : List Str) (chunks : List CachedChunk) : List CachedChunk :=
  chunks.filter (chunkMatchesQuery topicWords)

/-- The chunks `getChapterSection` renders:
`relevantChunks.slice(0, maxChunks)`. -/
def getChapterSectionChunks (topicWords : List Str) (contextLevel : Str)
    (chunks : List CachedChunk) : List CachedChunk :=
  (relevantChunksFor topicWords chunks).take (contextSizeOf contextLevel)

/-- Total number of character positions the char-to-page walk can assign:
each page contributes its text length plus one. -/
def sumBlocks (pd : PageData) : Nat := (pd.map (fun p => p.2.length + 1)).sum

/-- Whether a string has no leading and no trailing whitespace. -/
def trimmedEdges (s : Str) : Bool :=
  (match s.head? with | some c => !(isWS c) | none => true)
    && (match s.getLast? with | some c => !(isWS c) | none => true)

/-- Five single-chunk chapters whose chunk texts contain one to five
occurrences of the word `anchor` (the claim's end-to-end scenario B input). -/
def scenarioChaptersB : List ChapterInput :=
  [ { chunks := [{ text := "anchor".data, topics := [] }]
      metadataScore := 0, keywords := [] },
    { chunks := [{ text := "anchor anchor".data, topics := [] }]
      metadataScore := 0, keywords := [] },
    { chunks := [{ text := "anchor anchor anchor".data, topics := [] }]
      metadataScore := 0, keywords := [] },
    { chunks := [{ text := "anchor anchor anchor anchor".data, topics := [] }]
      metadataScore := 0, keywords := [] },
    { chunks := [{ text := "anchor anchor anchor anchor anchor".data, topics := [] }]
      metadataScore := 0, keywords := [] } ]

/-!  Theorems.  Each claim of the specification gets one theorem below;
helper lemmas are shared. -/

/-- C2 counterexample: the reconstructor is not idempotent.  On
`'a b c d e'` one application yields `'abcd e'` (step 1 merges `a b c`,
step 2's non-overlapping scan then only merges `c d`, passing over the
leftover `d e` pair), and a second application merges the remaining pair
to `'abcde'`. -/
theorem c2_reconstruct_not_idempotent :
    reconstructText (reconstructText ("a b c d e".data))
      ≠ reconstructText ("a b c d e".data) := by decide

/-- C2, amended: `reconstructText` is not idempotent for arbitrary input:
one application sends `'a b c d e'` to `'abcd e'`, whose image `'abcde'`
differs; idempotence holds only at particular inputs, such as fixed points
like `'abcde'` and the empty string. -/
theorem c2_amended_reconstruct_stabilizes :
    reconstructText ("a b c d e".data) = "abcd e".data
    ∧ reconstructText ("abcd e".data) = "abcde".data
    ∧ reconstructText ("abcde".data) = "abcde".data
    ∧ reconstructText ([] : Str) = [] := by decide

/-- C3: the search score is monotone in the per-query-word occurrence
counts: against the same metadata seed and topics, a chunk text whose
regex-counted occurrences of every query word are at least those of another
(strictly more for one word) scores at least as much. -/
theorem c3_score_monotone (md : Nat) (qws : List Str) (topics : List Str) (t1 t2 : Str)
    (hmono : ∀ w ∈ qws, countOccurs w (toLowerStr t1) ≤ countOccurs w (toLowerStr t2))
    (hstrict : ∃ w ∈ qws, countOccurs w (toLowerStr t1) < countOccurs w (toLowerStr t2)) :
    chunkScore md qws { text := t1, topics := topics }
      ≤ chunkScore md qws { text := t2, topics := topics } := by
  clear hstrict
  unfold chunkScore
  have hsum : ((qws.map (fun w => countOccurs w (toLowerStr t1) * 10)).sum)
      ≤ ((qws.map (fun w => countOccurs w (toLowerStr t2) * 10)).sum) :=
    List.sum_le_sum (fun w hw => Nat.mul_le_mul_right 10 (hmono w hw))
  simp only
  omega

/-- C3 witness: the monotonicity theorem applied at a concrete pair of
chunks (zero vs two occurrences of the query word `cat`). -/
theorem c3_score_monotone_witness :
    (∀ w ∈ [("cat".data : Str)],
        countOccurs w (toLowerStr ("dog".data)) ≤ countOccurs w (toLowerStr ("cat cat".data)))
    ∧ (∃ w ∈ [("cat".data : Str)],
        countOccurs w (toLowerStr ("dog".data)) < countOccurs w (toLowerStr ("cat cat".data)))
    ∧ chunkScore 7 ["cat".data] { text := "dog".data, topics := ["cat".data] }
        ≤ chunkScore 7 ["cat".data] { text := "cat cat".data, topics := ["cat".data] } :=
  ⟨by decide, by decide,
    c3_score_monotone 7 ["cat".data] ["cat".data] ("dog".data) ("cat cat".data)
      (by decide) (by decide)⟩

/-- C6: the claim describes the intended graceful degradation, but the code
has a slip: the PDF2JSON parser's data-error handler resolves the bare string
`''` instead of an empty result object, so when the primary method returns
empty text and the secondary reports a data error, destructuring the string
leaves the text undefined and extraction throws
`Comprehensive PDF extraction failed: ...` instead of recording an empty
record.  (With a correctly shaped secondary result — any result object —
the pipeline does record a record without a fatal error.) -/
theorem c6_parse_failure_fatal_error :
    (comprehensiveExtract pdfReaderErrorResult PDF2JSONOutcome.errorString).isOk = false
    ∧ comprehensiveExtract pdfReaderErrorResult PDF2JSONOutcome.errorString
        = Except.error
            ("Comprehensive PDF extraction failed: Cannot read properties of undefined".data)
    ∧ ∀ r : ExtractionResult,
        (comprehensiveExtract pdfReaderErrorResult (PDF2JSONOutcome.result r)).isOk = true :=
  ⟨by decide, rfl, fun r => rfl⟩

/-- C7: `comprehensiveExtractPDF` invokes the secondary method exactly when
the primary text is empty or shorter than 100 characters, and otherwise
continues with the primary result without invoking the secondary method. -/
theorem c7_fallback_iff_short_primary (p : ExtractionResult) (s : PDF2JSONOutcome) :
    ((comprehensiveSelect p s).2 = true ↔ p.text.length < 100)
    ∧ (100 ≤ p.text.length →
        comprehensiveSelect p s = (PDF2JSONOutcome.result p, false)) := by
  have hiff : usesFallback p = true ↔ p.text.length < 100 := by
    unfold usesFallback
    rw [Bool.or_eq_true, List.isEmpty_iff, decide_eq_true_eq]
    constructor
    · rintro (h | h)
      · rw [h]; simp
      · exact h
    · intro h; right; exact h
  constructor
  · unfold comprehensiveSelect
    by_cases hf : usesFallback p = true
    · rw [if_pos hf]; simpa using hiff.mp hf
    · rw [if_neg hf]
      simp only [Bool.false_eq_true, false_iff]
      intro hlt
      exact hf (hiff.mpr hlt)
  · intro h100
    unfold comprehensiveSelect
    rw [if_neg]
    intro hf
    have := hiff.mp hf
    omega

/-- C7 witness: a 100-character primary result is used as is, with the
secondary method not invoked. -/
theorem c7_fallback_iff_short_primary_witness :
    100 ≤ (({ text := List.replicate 100 'a', pageData := [], totalPages := some 1 }
        : ExtractionResult)).text.length
    ∧ comprehensiveSelect
        { text := List.replicate 100 'a', pageData := [], totalPages := some 1 }
        PDF2JSONOutcome.errorString
      = (PDF2JSONOutcome.result
          { text := List.replicate 100 'a', pageData := [], totalPages := some 1 }, false) :=
  ⟨by decide,
    (c7_fallback_iff_short_primary
      { text := List.replicate 100 'a', pageData := [], totalPages := some 1 }
      PDF2JSONOutcome.errorString).2 (by decide)⟩

/-- C9: with at least one relevant chunk, `getChapterSection` renders exactly
`min(N, number of relevant chunks)` chunks, where N is 1 for `brief`, 2 for
`detailed`, 3 for `comprehensive` and 2 for anything else; the rendered
chunks are the first N relevant chunks in original chunk order (a sublist of
the cached chunk list), not a score-based selection. -/
theorem c9_section_selection (tw : List Str) (lvl : Str) (chunks : List CachedChunk)
    (hne : relevantChunksFor tw chunks ≠ []) :
    (getChapterSectionChunks tw lvl chunks).length
        = min (contextSizeOf lvl) (relevantChunksFor tw chunks).length
    ∧ getChapterSectionChunks tw lvl chunks
        = (relevantChunksFor tw chunks).take (contextSizeOf lvl)
    ∧ (getChapterSectionChunks tw lvl chunks).Sublist chunks
    ∧ contextSizeOf ("brief".data) = 1
    ∧ contextSizeOf ("detailed".data) = 2
    ∧ contextSizeOf ("comprehensive".data) = 3
    ∧ (lvl ≠ "brief".data → lvl ≠ "detailed".data → lvl ≠ "comprehensive".data →
        contextSizeOf lvl = 2) := by
  refine ⟨?_, rfl, ?_, by decide, by decide, by decide, ?_⟩
  · rw [getChapterSectionChunks, List.length_take]
  · exact (List.take_sublist _ _).trans (List.filter_sublist _)
  · intro h1 h2 h3
    unfold contextSizeOf
    rw [if_neg h1, if_neg h2, if_neg h3]

/-- C9 witness: `brief` on a chapter with four matching chunks renders
exactly one chunk, the first relevant one. -/
theorem c9_section_selection_witness :
    relevantChunksFor ["anchor".data]
        [{ text := "anchor 1".data, topics := [] }, { text := "anchor 2".data, topics := [] },
         { text := "anchor 3".data, topics := [] }, { text := "anchor 4".data, topics := [] }]
      ≠ []
    ∧ (getChapterSectionChunks ["anchor".data] ("brief".data)
        [{ text := "anchor 1".data, topics := [] }, { text := "anchor 2".data, topics := [] },
         { text := "anchor 3".data, topics := [] }, { text := "anchor 4".data, topics := [] }]).length
      = 1 := by
  refine ⟨by decide, ?_⟩
  rw [(c9_section_selection ["anchor".data] ("brief".data)
    [{ text := "anchor 1".data, topics := [] }, { text := "anchor 2".data, topics := [] },
     { text := "anchor 3".data, topics := [] }, { text := "anchor 4".data, topics := [] }]
    (by decide)).1]
  decide

/-- The best-match fold of `getContextSnippet`, on query words none of which
occurs at index 0, computes the minimum of the found occurrence indices
(or leaves the accumulator untouched when none is found). -/
theorem snippetFold_eq_min (T : Str) (l : List Str) :
    ∀ a : Nat, (∀ w ∈ l, jsIndexOf T w ≠ some 0) →
      l.foldl (fun acc w =>
          match jsIndexOf T w with
          | none => acc
          | some i => if acc = 0 ∨ i < acc then i else acc) a
        = (match l.filterMap (fun w => jsIndexOf T w) with
           | [] => a
           | i0 :: irest => if a = 0 then irest.foldl min i0 else (i0 :: irest).foldl min a) := by
  induction l with
  | nil => intro a _; rfl
  | cons w l ih =>
    intro a h
    have hw := h w (List.mem_cons_self w l)
    have hl : ∀ w' ∈ l, jsIndexOf T w' ≠ some 0 :=
      fun w' hw' => h w' (List.mem_cons_of_mem w hw')
    cases hj : jsIndexOf T w with
    | none =>
      simp only [List.foldl_cons, List.filterMap_cons, hj]
      exact ih a hl
    | some i =>
      have hi : i ≠ 0 := fun h00 => hw (h00 ▸ hj)
      simp only [List.foldl_cons, List.filterMap_cons, hj]
      by_cases ha : a = 0
      · subst ha
        rw [if_pos (Or.inl rfl), ih i hl]
        cases hfm : l.filterMap (fun w' => jsIndexOf T w') with
        | nil => simp [hi]
        | cons j js => simp [hi]
      · have hmin : (if a = 0 ∨ i < a then i else a) = min a i := by
          split
          · omega
          · omega
        rw [hmin, ih (min a i) hl]
        have hmin0 : ¬ (min a i = 0) := by omega
        cases hfm : l.filterMap (fun w' => jsIndexOf T w') with
        | nil => simp [ha, hmin0]
        | cons j js => simp [ha, hmin0]

/-- A fold of `min` over positive numbers starting from a positive number
stays positive. -/
theorem foldl_min_ne_zero : ∀ (l : List Nat) (a : Nat), a ≠ 0 → (∀ x ∈ l, x ≠ 0) →
    l.foldl min a ≠ 0 := by
  intro l
  induction l with
  | nil => intro a ha _; exact ha
  | cons x xs ih =>
    intro a ha hall
    have hx : x ≠ 0 := hall x (List.mem_cons_self x xs)
    have : min a x ≠ 0 := by omega
    exact ih (min a x) this (fun y hy => hall y (List.mem_cons_of_mem x hy))

set_option maxRecDepth 40000 in
/-- C4 counterexample: with the query words `cat` (occurring at index 0) and
`dog` (occurring at index 252) over a 255-character text, the tracker's
`bestMatch.index === 0` test conflates the index-0 occurrence with absence,
so the snippet is centered on `dog` rather than on the earliest occurrence
as the claim describes. -/
theorem c4_snippet_counterexample :
    getContextSnippet ("cat".data ++ List.replicate 249 'x' ++ "dog".data)
        ["cat".data, "dog".data]
      ≠ contextSnippetClaimed ("cat".data ++ List.replicate 249 'x' ++ "dog".data)
        ["cat".data, "dog".data] := by decide

/-- C4, amended: provided no query word occurs at string index 0 of the chunk
text, `getContextSnippet` behaves exactly as the claim describes: it locates
the earliest-occurring query word by string index and returns the
500-character window centered there, clipped to the text bounds, with an
ellipsis at each truncated end, and returns the leading 500-character window
(with a trailing ellipsis when the text is longer) when no query word occurs. -/
theorem c4_amended_snippet_behaviour (text : Str) (qws : List Str)
    (h0 : ∀ w ∈ qws, jsIndexOf (toLowerStr text) w ≠ some 0) :
    getContextSnippet text qws = contextSnippetClaimed text qws := by
  unfold getContextSnippet contextSnippetClaimed
  rw [snippetFold_eq_min (toLowerStr text) qws 0 h0]
  cases hfm : qws.filterMap (fun w => jsIndexOf (toLowerStr text) w) with
  | nil => simp
  | cons i0 irest =>
    have hall : ∀ i ∈ i0 :: irest, i ≠ 0 := by
      rw [← hfm]
      intro i hi h00
      obtain ⟨w, hw, hjw⟩ := List.mem_filterMap.mp hi
      exact h0 w hw (h00 ▸ hjw)
    have hmin0 : irest.foldl min i0 ≠ 0 :=
      foldl_min_ne_zero irest i0 (hall i0 (List.mem_cons_self i0 irest))
        (fun y hy => hall y (List.mem_cons_of_mem i0 hy))
    simp only [if_pos rfl, if_true, if_neg hmin0]

/-- C4 amended-theorem witness: a text whose single query word occurs at a
positive index. -/
theorem c4_amended_snippet_behaviour_witness :
    (∀ w ∈ [("cat".data : Str)], jsIndexOf (toLowerStr ("xcat".data)) w ≠ some 0)
    ∧ getContextSnippet ("xcat".data) ["cat".data]
        = contextSnippetClaimed ("xcat".data) ["cat".data] :=
  ⟨by decide, c4_amended_snippet_behaviour ("xcat".data) ["cat".data] (by decide)⟩

/-- The scored match list of a chapter is sorted descending by score. -/
theorem scoredMatchList_sorted (qws : List Str) (ci : ChapterInput) :
    List.Sorted (fun a b : ScoredMatch => b.score ≤ a.score) (scoredMatchList qws ci) := by
  simp only [scoredMatchList]
  split
  · exact List.sorted_singleton _
  · exact @List.sorted_insertionSort ScoredMatch (fun a b => b.score ≤ a.score) _
      ⟨fun a b => le_total b.score a.score⟩
      ⟨fun _ _ _ hab hbc => le_trans hbc hab⟩ _

/-- Inversion for a pushed chapter result: its matches are the first two of
the chapter's sorted scored list. -/
theorem processChapter_topMatches {qws : List Str} {ci : ChapterInput} {r : ChapterResult}
    (h : processChapter qws ci = some r) :
    r.topMatches = (scoredMatchList qws ci).take 2 := by
  unfold processChapter at h
  split at h
  · split at h
    · exact absurd h (by simp)
    · cases h
      rfl
  · exact absurd h (by simp)

/-- C8: each returned chapter result keeps at most two matches, sorted
descending by score and at least as high-scored as every dropped match of
that chapter; the ranked result list is sorted descending by best match
score and holds at most `maxResults` entries; and the concrete scenario —
a search over five matching single-chunk chapters with `maxResults = 2` —
returns exactly two results with descending best scores 50 and 40. -/
theorem c8_search_ranking :
    (∀ (qws : List Str) (ci : ChapterInput) (r : ChapterResult),
        processChapter qws ci = some r →
          r.topMatches.length ≤ 2
          ∧ List.Sorted (fun a b : ScoredMatch => b.score ≤ a.score) r.topMatches
          ∧ (∀ m ∈ r.topMatches, ∀ m' ∈ (scoredMatchList qws ci).drop 2, m'.score ≤ m.score))
    ∧ (∀ (qws : List Str) (books : List (List ChapterInput)) (mr : Nat),
        List.Sorted (fun a b : ChapterResult => bestScore b ≤ bestScore a)
          (searchRank qws books mr)
        ∧ (searchRank qws books mr).length ≤ mr)
    ∧ (searchRank ["anchor".data] [scenarioChaptersB] 2).length = 2
    ∧ (searchRank ["anchor".data] [scenarioChaptersB] 2).map bestScore = [50, 40] := by
  refine ⟨?_, ?_, by decide, by decide⟩
  · intro qws ci r h
    have ht := processChapter_topMatches h
    refine ⟨?_, ?_, ?_⟩
    · rw [ht, List.length_take]
      omega
    · rw [ht]
      exact List.Pairwise.sublist (List.take_sublist _ _) (scoredMatchList_sorted qws ci)
    · intro m hm m' hm'
      rw [ht] at hm
      exact (scoredMatchList_sorted qws ci).rel_of_mem_take_of_mem_drop hm hm'
  · intro qws books mr
    constructor
    · exact List.Pairwise.sublist (List.take_sublist _ _)
        (@List.sorted_insertionSort ChapterResult (fun a b => bestScore b ≤ bestScore a) _
          ⟨fun a b => le_total (bestScore b) (bestScore a)⟩
          ⟨fun _ _ _ hab hbc => le_trans hbc hab⟩ _)
    · rw [searchRank, List.length_take]
      omega

/-- C8 witness: the per-chapter bound applied to a concrete chapter whose
single chunk matches the query with score 20. -/
theorem c8_search_ranking_witness :
    processChapter ["anchor".data]
        { chunks := [{ text := "anchor anchor".data, topics := [] }]
          metadataScore := 0, keywords := [] }
      = some { topMatches := [{ text := "anchor anchor".data, topics := [], score := 20 }]
               metadataScore := 0 }
    ∧ ({ topMatches := [{ text := "anchor anchor".data, topics := [], score := 20 }]
         metadataScore := 0 } : ChapterResult).topMatches.length ≤ 2 :=
  ⟨by decide,
    (c8_search_ranking.1 ["anchor".data]
      { chunks := [{ text := "anchor anchor".data, topics := [] }]
        metadataScore := 0, keywords := [] }
      { topMatches := [{ text := "anchor anchor".data, topics := [], score := 20 }]
        metadataScore := 0 } (by decide)).1⟩

/-- Concatenating the texts of the chunks emitted from position `i` gives the
full text from position `i` on, for any sufficient fuel. -/
theorem chunksGo_texts_flatten (ft : Str) (pd : PageData) (tp : Nat) :
    ∀ (fuel i id : Nat), ft.length ≤ i + fuel * CHUNK_SIZE →
      ((createPageAwareChunksGo ft pd tp fuel i id).map Chunk.text).flatten = ft.drop i := by
  intro fuel
  induction fuel with
  | zero =>
    intro i id h
    simp only [createPageAwareChunksGo, List.map_nil, List.flatten_nil]
    symm
    exact List.drop_eq_nil_of_le (by omega)
  | succ fuel ih =>
    intro i id h
    by_cases hi : i < ft.length
    · simp only [createPageAwareChunksGo, if_pos hi, List.map_cons, List.flatten_cons]
      rw [ih (i + CHUNK_SIZE) (id + 1) (by rw [Nat.succ_mul] at h; omega)]
      rw [← List.drop_drop]
      exact List.take_append_drop CHUNK_SIZE (ft.drop i)
    · simp only [createPageAwareChunksGo, if_neg hi, List.map_nil, List.flatten_nil]
      symm
      exact List.drop_eq_nil_of_le (by omega)

/-- Field equations for every emitted chunk: its bounds, text, page range
formulas, and position bounds. -/
theorem chunksGo_mem_fields (ft : Str) (pd : PageData) (tp : Nat) :
    ∀ (fuel i id : Nat), ∀ c ∈ createPageAwareChunksGo ft pd tp fuel i id,
      c.endChar = min (c.startChar + CHUNK_SIZE) ft.length
      ∧ c.text = (ft.drop c.startChar).take CHUNK_SIZE
      ∧ c.startPage = orFalsy (createCharToPageMap ft.length pd c.startChar) 1
      ∧ c.endPage = orFalsy (createCharToPageMap ft.length pd (c.endChar - 1)) tp
      ∧ i ≤ c.startChar ∧ c.startChar < ft.length := by
  intro fuel
  induction fuel with
  | zero => intro i id c hc; simp [createPageAwareChunksGo] at hc
  | succ fuel ih =>
    intro i id c hc
    by_cases hi : i < ft.length
    · simp only [createPageAwareChunksGo, if_pos hi, List.mem_cons] at hc
      rcases hc with rfl | hc
      · exact ⟨rfl, rfl, rfl, rfl, le_refl i, hi⟩
      · obtain ⟨h1, h2, h3, h4, h5, h6⟩ := ih (i + CHUNK_SIZE) (id + 1) c hc
        exact ⟨h1, h2, h3, h4, by omega, h6⟩
    · simp [createPageAwareChunksGo, if_neg hi] at hc

/-- The first chunk emitted from position `i` starts at `i`. -/
theorem chunksGo_head_start (ft : Str) (pd : PageData) (tp : Nat)
    (fuel i id : Nat) (c : Chunk) (l : List Chunk)
    (h : createPageAwareChunksGo ft pd tp fuel i id = c :: l) : c.startChar = i := by
  cases fuel with
  | zero => simp [createPageAwareChunksGo] at h
  | succ fuel =>
    by_cases hi : i < ft.length
    · simp only [createPageAwareChunksGo, if_pos hi] at h
      cases h
      rfl
    · simp [createPageAwareChunksGo, if_neg hi] at h

/-- The emitted chunk list is nonempty exactly when there is fuel and text
left. -/
theorem chunksGo_ne_nil_iff (ft : Str) (pd : PageData) (tp : Nat) (fuel i id : Nat) :
    createPageAwareChunksGo ft pd tp fuel i id ≠ [] ↔ (0 < fuel ∧ i < ft.length) := by
  cases fuel with
  | zero => simp [createPageAwareChunksGo]
  | succ fuel =>
    by_cases hi : i < ft.length
    · simp [createPageAwareChunksGo, if_pos hi, hi]
    · simp [createPageAwareChunksGo, if_neg hi, hi]

/-- Adjacent emitted chunks meet exactly: each chunk's `endChar` is the next
chunk's `startChar`. -/
theorem chunksGo_chain (ft : Str) (pd : PageData) (tp : Nat) :
    ∀ (fuel i id : Nat),
      List.Chain' (fun a b : Chunk => a.endChar = b.startChar)
        (createPageAwareChunksGo ft pd tp fuel i id) := by
  intro fuel
  induction fuel with
  | zero => intro i id; simp [createPageAwareChunksGo]
  | succ fuel ih =>
    intro i id
    by_cases hi : i < ft.length
    · simp only [createPageAwareChunksGo, if_pos hi]
      cases htail : createPageAwareChunksGo ft pd tp fuel (i + CHUNK_SIZE) (id + 1) with
      | nil => simp
      | cons c' l' =>
        rw [List.chain'_cons]
        constructor
        · have hs := chunksGo_head_start ft pd tp fuel (i + CHUNK_SIZE) (id + 1) c' l' htail
          have hne : createPageAwareChunksGo ft pd tp fuel (i + CHUNK_SIZE) (id + 1) ≠ [] := by
            rw [htail]; simp
          have hlt := ((chunksGo_ne_nil_iff ft pd tp fuel (i + CHUNK_SIZE) (id + 1)).mp hne).2
          show min (i + CHUNK_SIZE) ft.length = c'.startChar
          rw [hs, Nat.min_eq_left (le_of_lt hlt)]
        · rw [← htail]
          exact ih (i + CHUNK_SIZE) (id + 1)
    · simp [createPageAwareChunksGo, if_neg hi]

/-- With sufficient fuel and text remaining, the last emitted chunk ends at
the full text's length. -/
theorem chunksGo_last_end (ft : Str) (pd : PageData) (tp : Nat) :
    ∀ (fuel i id : Nat), ft.length ≤ i + fuel * CHUNK_SIZE → i < ft.length →
      (createPageAwareChunksGo ft pd tp fuel i id).getLast?.map Chunk.endChar
        = some ft.length := by
  intro fuel
  induction fuel with
  | zero => intro i id h hi; exfalso; omega
  | succ fuel ih =>
    intro i id h hi
    simp only [createPageAwareChunksGo, if_pos hi]
    by_cases h2 : i + CHUNK_SIZE < ft.length
    · have h' : ft.length ≤ (i + CHUNK_SIZE) + fuel * CHUNK_SIZE := by
        rw [Nat.succ_mul] at h; omega
      have hrec := ih (i + CHUNK_SIZE) (id + 1) h' h2
      cases htail : createPageAwareChunksGo ft pd tp fuel (i + CHUNK_SIZE) (id + 1) with
      | nil => rw [htail] at hrec; simp at hrec
      | cons c' l' =>
        rw [htail] at hrec
        rw [List.getLast?_cons_cons]
        exact hrec
    · have htail : createPageAwareChunksGo ft pd tp fuel (i + CHUNK_SIZE) (id + 1) = [] := by
        cases fuel with
        | zero => rfl
        | succ f => simp [createPageAwareChunksGo, if_neg h2]
      rw [htail]
      simp only [List.getLast?_singleton, Option.map_some]
      exact congrArg some (min_eq_right (le_of_not_lt h2))

/-- The emitted ids are consecutive, starting from the id counter. -/
theorem chunksGo_ids (ft : Str) (pd : PageData) (tp : Nat) :
    ∀ (fuel i id : Nat),
      (createPageAwareChunksGo ft pd tp fuel i id).map Chunk.id
        = List.range' id (createPageAwareChunksGo ft pd tp fuel i id).length := by
  intro fuel
  induction fuel with
  | zero => intro i id; simp [createPageAwareChunksGo]
  | succ fuel ih =>
    intro i id
    by_cases hi : i < ft.length
    · simp only [createPageAwareChunksGo, if_pos hi, List.map_cons, List.length_cons]
      rw [ih (i + CHUNK_SIZE) (id + 1)]
      rfl
    · simp [createPageAwareChunksGo, if_neg hi]

/-- C1: the chunk sequence partitions the text exactly: an empty text gives
no chunks; otherwise chunk 0 starts at character 0 and the last chunk ends at
the text length; each chunk's `endChar` is the next chunk's `startChar`; each
chunk's text is the substring of the full text from its `startChar` to its
`endChar`; concatenating the chunk texts in order reproduces the full text;
and the ids are the positions 0, 1, 2, ... in emission order. -/
theorem c1_chunks_partition (ft : Str) (pd : PageData) (tp : Nat) :
    (ft = [] → createPageAwareChunks ft pd tp = [])
    ∧ (ft ≠ [] →
        (createPageAwareChunks ft pd tp).head?.map Chunk.startChar = some 0
        ∧ (createPageAwareChunks ft pd tp).getLast?.map Chunk.endChar = some ft.length)
    ∧ List.Chain' (fun a b : Chunk => a.endChar = b.startChar) (createPageAwareChunks ft pd tp)
    ∧ (∀ c ∈ createPageAwareChunks ft pd tp,
        c.text = (ft.drop c.startChar).take (c.endChar - c.startChar))
    ∧ ((createPageAwareChunks ft pd tp).map Chunk.text).flatten = ft
    ∧ (createPageAwareChunks ft pd tp).map Chunk.id
        = List.range (createPageAwareChunks ft pd tp).length := by
  have hfuel : ft.length ≤ 0 + (ft.length + 1) * CHUNK_SIZE := by
    simp only [CHUNK_SIZE]; omega
  refine ⟨?_, ?_, chunksGo_chain ft pd tp _ 0 0, ?_, ?_, ?_⟩
  · intro he
    subst he
    rfl
  · intro hne
    have hlen : 0 < ft.length := List.length_pos.mpr hne
    constructor
    · cases hgo : createPageAwareChunks ft pd tp with
      | nil =>
        exact absurd hgo ((chunksGo_ne_nil_iff ft pd tp (ft.length + 1) 0 0).mpr
          ⟨by omega, hlen⟩)
      | cons c l =>
        exact congrArg some (chunksGo_head_start ft pd tp (ft.length + 1) 0 0 c l hgo)
    · exact chunksGo_last_end ft pd tp (ft.length + 1) 0 0 hfuel hlen
  · intro c hc
    obtain ⟨h1, h2, _, _, _, h6⟩ :=
      chunksGo_mem_fields ft pd tp (ft.length + 1) 0 0 c hc
    rcases le_total CHUNK_SIZE (ft.length - c.startChar) with hcs | hcs
    · have he : c.endChar - c.startChar = CHUNK_SIZE := by rw [h1]; omega
      rw [h2, he]
    · have he : c.endChar - c.startChar = ft.length - c.startChar := by rw [h1]; omega
      have hdl : (ft.drop c.startChar).length = ft.length - c.startChar :=
        List.length_drop c.startChar ft
      rw [h2, he, List.take_of_length_le (by omega), List.take_of_length_le (by omega)]
  · have := chunksGo_texts_flatten ft pd tp (ft.length + 1) 0 0 hfuel
    simpa using this
  · simp only [createPageAwareChunks]
    rw [chunksGo_ids ft pd tp (ft.length + 1) 0 0, List.range_eq_range']

/-- C1 witness: the partition facts instantiated on a two-character text
(a single chunk covering the whole text). -/
theorem c1_chunks_partition_witness :
    ("ab".data : Str) ≠ []
    ∧ (createPageAwareChunks ("ab".data) [] 0).head?.map Chunk.startChar = some 0
    ∧ ((createPageAwareChunks ("ab".data) [] 0).map Chunk.text).flatten = "ab".data :=
  ⟨by decide, ((c1_chunks_partition ("ab".data) [] 0).2.1 (by decide)).1,
    (c1_chunks_partition ("ab".data) [] 0).2.2.2.2.1⟩

/-- A page returned by the position walk is one of the page numbers. -/
theorem pageOfPos_mem : ∀ (pd : PageData) (pos p : Nat),
    pageOfPos pd pos = some p → p ∈ pd.map Prod.fst := by
  intro pd
  induction pd with
  | nil => intro pos p h; simp [pageOfPos] at h
  | cons e rest ih =>
    intro pos p h
    obtain ⟨k, s⟩ := e
    simp only [pageOfPos] at h
    split at h
    · cases h
      simp
    · simp only [List.map_cons, List.mem_cons]
      exact Or.inr (ih _ p h)

/-- The walk runs out exactly at the total block length. -/
theorem pageOfPos_eq_none_iff : ∀ (pd : PageData) (pos : Nat),
    pageOfPos pd pos = none ↔ sumBlocks pd ≤ pos := by
  intro pd
  induction pd with
  | nil => intro pos; simp [pageOfPos, sumBlocks]
  | cons e rest ih =>
    intro pos
    obtain ⟨k, s⟩ := e
    simp only [pageOfPos, sumBlocks, List.map_cons, List.sum_cons]
    split
    · simp only [reduceCtorEq, false_iff]
      omega
    · rw [ih]
      have hsb : sumBlocks rest = (rest.map (fun p => p.2.length + 1)).sum := rfl
      rw [← hsb]
      omega

/-- On a key-sorted page list, the walk is monotone: a later position lands on
a page with a number at least as large. -/
theorem pageOfPos_mono : ∀ (pd : PageData),
    List.Pairwise (fun a b : Nat × Str => a.1 ≤ b.1) pd →
    ∀ (pos1 pos2 p1 p2 : Nat), pos1 ≤ pos2 →
    pageOfPos pd pos1 = some p1 → pageOfPos pd pos2 = some p2 → p1 ≤ p2 := by
  intro pd
  induction pd with
  | nil => intro _ pos1 pos2 p1 p2 _ h1 _; simp [pageOfPos] at h1
  | cons e rest ih =>
    intro hpw pos1 pos2 p1 p2 hle h1 h2
    obtain ⟨k, s⟩ := e
    rw [List.pairwise_cons] at hpw
    simp only [pageOfPos] at h1 h2
    by_cases hb1 : pos1 < s.length + 1
    · rw [if_pos hb1] at h1
      cases h1
      by_cases hb2 : pos2 < s.length + 1
      · rw [if_pos hb2] at h2
        cases h2
        exact le_refl _
      · rw [if_neg hb2] at h2
        obtain ⟨x, hx, hx2⟩ := List.mem_map.mp (pageOfPos_mem rest _ _ h2)
        exact hx2 ▸ hpw.1 x hx
    · rw [if_neg hb1] at h1
      have hb2 : ¬ pos2 < s.length + 1 := by omega
      rw [if_neg hb2] at h2
      exact ih hpw.2 _ _ p1 p2 (by omega) h1 h2

/-- The sorted page list is sorted by page number. -/
theorem sortPagesByNum_sorted (pd : PageData) :
    List.Pairwise (fun a b : Nat × Str => a.1 ≤ b.1) (sortPagesByNum pd) :=
  @List.sorted_insertionSort (Nat × Str) (fun a b => a.1 ≤ b.1) _
    ⟨fun a b => le_total a.1 b.1⟩ ⟨fun _ _ _ hab hbc => le_trans hab hbc⟩ pd

/-- A page found through the sorted walk is one of the original page numbers. -/
theorem pageOfPos_sort_mem (pd : PageData) (pos p : Nat)
    (h : pageOfPos (sortPagesByNum pd) pos = some p) : p ∈ pd.map Prod.fst :=
  ((List.perm_insertionSort (fun a b : Nat × Str => a.1 ≤ b.1) pd).map Prod.fst).mem_iff.mp
    (pageOfPos_mem _ _ _ h)

/-- Length of a newline join: one separator between consecutive parts. -/
theorem joinWithNewlineSep_length : ∀ (ls : List Str), ls ≠ [] →
    (joinWithNewlineSep ls).length + 1 = (ls.map (fun s => s.length + 1)).sum := by
  intro ls
  induction ls with
  | nil => intro h; exact absurd rfl h
  | cons s rest ih =>
    intro _
    cases rest with
    | nil => simp [joinWithNewlineSep]
    | cons s2 r2 =>
      have hr := ih (by simp)
      simp only [joinWithNewlineSep, List.length_append, List.length_cons, List.map_cons,
        List.sum_cons] at hr ⊢
      omega

/-- Trimming never lengthens a string. -/
theorem jsTrim_length_le (s : Str) : (jsTrim s).length ≤ s.length := by
  unfold jsTrim
  have h1 : (s.dropWhile isWS).length ≤ s.length := (List.dropWhile_suffix isWS).length_le
  have h2 : ((s.dropWhile isWS).reverse.dropWhile isWS).length
      ≤ (s.dropWhile isWS).reverse.length := (List.dropWhile_suffix isWS).length_le
  simp only [List.length_reverse] at h2 ⊢
  omega

/-- C5: every chunk built from an extraction result either extraction method
can supply satisfies `startPage ≤ endPage` — for the PdfReader aggregation
with arbitrary page numbers (not necessarily starting at 1, page 0 falling
back to `startPage = 1`), and for the PDF2JSON aggregation whose
reconstructed text the page map need not cover (unmapped positions falling
back to `startPage = 1` and `endPage = totalPages`). -/
theorem c5_start_page_le_end_page :
    (∀ (pageText : PageData),
        ∀ c ∈ createPageAwareChunks (pdfReaderAggregate pageText).text
            (pdfReaderAggregate pageText).pageData
            ((pdfReaderAggregate pageText).totalPages.getD 0),
          c.startPage ≤ c.endPage)
    ∧ (∀ (rawPages : List Str),
        ∀ c ∈ createPageAwareChunks (pdf2jsonAggregate rawPages).text
            (pdf2jsonAggregate rawPages).pageData
            ((pdf2jsonAggregate rawPages).totalPages.getD 0),
          c.startPage ≤ c.endPage) := by
  have hcs : 0 < CHUNK_SIZE := by decide
  constructor
  · intro pageText c hc
    obtain ⟨h1, _, h3, h4, _, h6⟩ :=
      chunksGo_mem_fields (pdfReaderAggregate pageText).text (pdfReaderAggregate pageText).pageData
        ((pdfReaderAggregate pageText).totalPages.getD 0)
        ((pdfReaderAggregate pageText).text.length + 1) 0 0 c hc
    set ft := (pdfReaderAggregate pageText).text with hft
    have hij : c.startChar ≤ c.endChar - 1 := by omega
    have hjlen : c.endChar - 1 < ft.length := by omega
    have hsne : sortPagesByNum pageText ≠ [] := by
      intro hnil
      have : ft = [] := by
        rw [hft]
        show jsTrim (joinWithNewlineSep ((sortPagesByNum pageText).map Prod.snd)) = []
        rw [hnil]
        rfl
      rw [this] at h6
      simp at h6
    -- full coverage: the trimmed join is shorter than the block total
    have hcover : ∀ pos, pos < ft.length →
        pageOfPos (sortPagesByNum pageText) pos ≠ none := by
      intro pos hpos hnone
      have hblocks := (pageOfPos_eq_none_iff _ pos).mp hnone
      have hjoin := joinWithNewlineSep_length ((sortPagesByNum pageText).map Prod.snd)
        (by simpa using hsne)
      have htrim : ft.length ≤ (joinWithNewlineSep ((sortPagesByNum pageText).map Prod.snd)).length :=
        jsTrim_length_le _
      have hsb : sumBlocks (sortPagesByNum pageText)
          = (((sortPagesByNum pageText).map Prod.snd).map (fun s => s.length + 1)).sum := by
        rw [List.map_map]
        rfl
      rw [hsb] at hblocks
      omega
    have hmapi : createCharToPageMap ft.length (pdfReaderAggregate pageText).pageData c.startChar
        = pageOfPos (sortPagesByNum pageText) c.startChar := by
      simp only [createCharToPageMap, if_pos h6]
      rfl
    have hmapj : createCharToPageMap ft.length (pdfReaderAggregate pageText).pageData (c.endChar - 1)
        = pageOfPos (sortPagesByNum pageText) (c.endChar - 1) := by
      simp only [createCharToPageMap, if_pos hjlen]
      rfl
    cases hp : pageOfPos (sortPagesByNum pageText) c.startChar with
    | none => exact absurd hp (hcover _ h6)
    | some p =>
      cases hq : pageOfPos (sortPagesByNum pageText) (c.endChar - 1) with
      | none => exact absurd hq (hcover _ hjlen)
      | some q =>
        have hpq : p ≤ q :=
          pageOfPos_mono _ (sortPagesByNum_sorted pageText) _ _ p q hij hp hq
        have htp : 1 ≤ (pdfReaderAggregate pageText).totalPages.getD 0 := by
          show 1 ≤ (sortPagesByNum pageText).length
          cases hx : sortPagesByNum pageText with
          | nil => exact absurd hx hsne
          | cons a l => simp
        rw [h3, h4, hmapi, hmapj, hp, hq]
        cases q with
        | zero =>
          have hp0 : p = 0 := by omega
          subst hp0
          exact htp
        | succ q' =>
          cases p with
          | zero => show 1 ≤ q' + 1; omega
          | succ p' => show p' + 1 ≤ q' + 1; omega
  · intro rawPages c hc
    obtain ⟨h1, _, h3, h4, _, h6⟩ :=
      chunksGo_mem_fields (pdf2jsonAggregate rawPages).text (pdf2jsonAggregate rawPages).pageData
        ((pdf2jsonAggregate rawPages).totalPages.getD 0)
        ((pdf2jsonAggregate rawPages).text.length + 1) 0 0 c hc
    set ft := (pdf2jsonAggregate rawPages).text with hft
    have hij : c.startChar ≤ c.endChar - 1 := by omega
    have hjlen : c.endChar - 1 < ft.length := by omega
    have hn : rawPages ≠ [] := by
      intro hnil
      have : ft = [] := by
        rw [hft]
        show reconstructText ((rawPages.map (fun p => p ++ ['\n'])).flatten) = []
        rw [hnil]
        rfl
      rw [this] at h6
      simp at h6
    have htp : (pdf2jsonAggregate rawPages).totalPages.getD 0 = rawPages.length := rfl
    have hn1 : 1 ≤ rawPages.length := by
      cases hx : rawPages with
      | nil => exact absurd hx hn
      | cons a l => simp
    have hkey : ∀ p ∈ (pdf2jsonAggregate rawPages).pageData.map Prod.fst,
        1 ≤ p ∧ p ≤ rawPages.length := by
      intro p hp
      have hp' : p ∈ (((List.range rawPages.length).zip rawPages).map
          (fun pr => (pr.1 + 1, jsTrim pr.2))).map Prod.fst := hp
      rw [List.map_map] at hp'
      obtain ⟨pr, hpr, hpr2⟩ := List.mem_map.mp hp'
      obtain ⟨a, b⟩ := pr
      have ha := (List.of_mem_zip hpr).1
      rw [List.mem_range] at ha
      simp only [Function.comp_apply] at hpr2
      omega
    have hmapi : createCharToPageMap ft.length (pdf2jsonAggregate rawPages).pageData c.startChar
        = pageOfPos (sortPagesByNum (pdf2jsonAggregate rawPages).pageData) c.startChar := by
      simp only [createCharToPageMap, if_pos h6]
    have hmapj : createCharToPageMap ft.length (pdf2jsonAggregate rawPages).pageData (c.endChar - 1)
        = pageOfPos (sortPagesByNum (pdf2jsonAggregate rawPages).pageData) (c.endChar - 1) := by
      simp only [createCharToPageMap, if_pos hjlen]
    rw [h3, h4, hmapi, hmapj, htp]
    cases hp : pageOfPos (sortPagesByNum (pdf2jsonAggregate rawPages).pageData) c.startChar with
    | none =>
      have hq : pageOfPos (sortPagesByNum (pdf2jsonAggregate rawPages).pageData) (c.endChar - 1)
          = none := by
        rw [pageOfPos_eq_none_iff] at hp ⊢
        omega
      rw [hq]
      exact hn1
    | some p =>
      have hpb := hkey p (pageOfPos_sort_mem _ _ _ hp)
      cases hq : pageOfPos (sortPagesByNum (pdf2jsonAggregate rawPages).pageData) (c.endChar - 1) with
      | none =>
        cases p with
        | zero => omega
        | succ p' => show p' + 1 ≤ rawPages.length; omega
      | some q =>
        have hqb := hkey q (pageOfPos_sort_mem _ _ _ hq)
        have hpq : p ≤ q :=
          pageOfPos_mono _ (sortPagesByNum_sorted _) _ _ p q hij hp hq
        cases q with
        | zero => omega
        | succ q' =>
          cases p with
          | zero => omega
          | succ p' => show p' + 1 ≤ q' + 1; omega

/-- C5 witness: a chunk built from a PdfReader page map whose single page is
numbered 5 keeps `startPage ≤ endPage`. -/
theorem c5_start_page_le_end_page_witness :
    ({ id := 0, text := "abc".data, startChar := 0, endChar := 3, startPage := 5, endPage := 5,
       topics := [] } : Chunk)
      ∈ createPageAwareChunks (pdfReaderAggregate [(5, "abc".data)]).text
          (pdfReaderAggregate [(5, "abc".data)]).pageData
          ((pdfReaderAggregate [(5, "abc".data)]).totalPages.getD 0)
    ∧ ({ id := 0, text := "abc".data, startChar := 0, endChar := 3, startPage := 5, endPage := 5,
         topics := [] } : Chunk).startPage
      ≤ ({ id := 0, text := "abc".data, startChar := 0, endChar := 3, startPage := 5, endPage := 5,
           topics := [] } : Chunk).endPage :=
  ⟨by decide,
    c5_start_page_le_end_page.1 [(5, "abc".data)]
      { id := 0, text := "abc".data, startChar := 0, endChar := 3, startPage := 5, endPage := 5,
        topics := [] } (by decide)⟩

/-- The head surviving a `dropWhile` fails the predicate. -/
theorem dropWhile_head_false (p : Char → Bool) : ∀ (l : Str) (c : Char),
    (l.dropWhile p).head? = some c → p c = false := by
  intro l
  induction l with
  | nil => intro c h; simp [List.dropWhile] at h
  | cons a rest ih =>
    intro c h
    simp only [List.dropWhile] at h
    split at h
    · exact ih c h
    · rename_i hpa
      rw [List.head?_cons] at h
      cases h
      exact Bool.not_eq_true _ ▸ hpa

/-- Characterisation of `trimmedEdges` by its two edge conditions. -/
theorem trimmedEdges_iff (s : Str) : trimmedEdges s = true ↔
    ((∀ c, s.head? = some c → isWS c = false)
      ∧ (∀ c, s.getLast? = some c → isWS c = false)) := by
  unfold trimmedEdges
  rw [Bool.and_eq_true]
  constructor
  · rintro ⟨h1, h2⟩
    constructor
    · intro c hc; rw [hc] at h1; simpa using h1
    · intro c hc; rw [hc] at h2; simpa using h2
  · rintro ⟨h1, h2⟩
    constructor
    · cases hh : s.head? with
      | none => rfl
      | some c => simp [h1 c hh]
    · cases hh : s.getLast? with
      | none => rfl
      | some c => simp [h2 c hh]

/-- The JS trim leaves no whitespace at either edge. -/
theorem jsTrim_trimmedEdges (s : Str) : trimmedEdges (jsTrim s) = true := by
  rw [trimmedEdges_iff]
  constructor
  · intro c h
    rw [show jsTrim s = ((s.dropWhile isWS).reverse.dropWhile isWS).reverse from rfl,
      List.head?_reverse] at h
    have hsuf : ((s.dropWhile isWS).reverse.dropWhile isWS) <:+ (s.dropWhile isWS).reverse :=
      List.dropWhile_suffix isWS
    obtain ⟨t, ht⟩ := hsuf
    have hlast : ((s.dropWhile isWS).reverse).getLast? = some c := by
      rw [← ht, List.getLast?_append, h]
      rfl
    rw [List.getLast?_reverse] at hlast
    exact dropWhile_head_false isWS s c hlast
  · intro c h
    rw [show jsTrim s = ((s.dropWhile isWS).reverse.dropWhile isWS).reverse from rfl,
      List.getLast?_reverse] at h
    exact dropWhile_head_false isWS _ c h

/-- A replacement scan of a nonempty string is nonempty when the replacement
is nonempty. -/
theorem applyFixGo_ne_nil (key rep : Str) (optS : Bool) (hrep : rep ≠ []) (c : Char) (rest : Str) :
    applyFixGo key rep optS 0 (c :: rest) ≠ [] := by
  simp only [applyFixGo]
  split
  · simp [hrep]
  · simp

/-- The replacement scan preserves a non-whitespace first character when the
replacement starts with one. -/
theorem applyFixGo_head (key rep : Str) (optS : Bool) (hrep : rep ≠ [])
    (hrh : ∀ c, rep.head? = some c → isWS c = false)
    (s : Str) (hsh : ∀ c, s.head? = some c → isWS c = false) :
    ∀ c, (applyFixGo key rep optS 0 s).head? = some c → isWS c = false := by
  intro c h
  cases s with
  | nil => simp [applyFixGo] at h
  | cons a rest =>
    simp only [applyFixGo] at h
    split at h
    · cases rep with
      | nil => exact absurd rfl hrep
      | cons d ds =>
        rw [List.cons_append, List.head?_cons] at h
        cases h
        exact hrh _ rfl
    · rw [List.head?_cons] at h
      cases h
      exact hsh _ rfl

/-- The replacement scan preserves a non-whitespace last character when the
replacement ends with one. -/
theorem applyFixGo_last (key rep : Str) (optS : Bool) (hrep : rep ≠ [])
    (hrl : ∀ c, rep.getLast? = some c → isWS c = false) :
    ∀ (s : Str) (n : Nat), (∀ c, s.getLast? = some c → isWS c = false) →
    ∀ c, (applyFixGo key rep optS n s).getLast? = some c → isWS c = false := by
  intro s
  induction s with
  | nil => intro n _ c h; simp [applyFixGo] at h
  | cons a rest ih =>
    intro n hsl c h
    have hrestl : ∀ c, rest.getLast? = some c → isWS c = false := by
      intro c' hc'
      apply hsl
      cases rest with
      | nil => simp at hc'
      | cons b r => rw [List.getLast?_cons_cons]; exact hc'
    cases n with
    | succ n' => exact ih n' hrestl c h
    | zero =>
      simp only [applyFixGo] at h
      split at h
      · rw [List.getLast?_append] at h
        cases hg : (applyFixGo key rep optS
            (key.length
              + (if optS && matchesCIAt 's' ((a :: rest).drop key.length) then 1 else 0) - 1)
            rest).getLast? with
        | some x =>
          rw [hg] at h
          cases h
          exact ih _ hrestl _ hg
        | none =>
          rw [hg, Option.none_or] at h
          exact hrl c h
      · cases hg : (applyFixGo key rep optS 0 rest).getLast? with
        | some x =>
          have hcons : (a :: applyFixGo key rep optS 0 rest).getLast? = some x := by
            cases hgo : applyFixGo key rep optS 0 rest with
            | nil => rw [hgo] at hg; simp at hg
            | cons y ys =>
              rw [hgo] at hg
              rw [List.getLast?_cons_cons]
              exact hg
          rw [hcons] at h
          cases h
          exact ih 0 hrestl _ hg
        | none =>
          have hgonil : applyFixGo key rep optS 0 rest = [] := by
            cases hgo : applyFixGo key rep optS 0 rest with
            | nil => rfl
            | cons y ys => rw [hgo] at hg; simp at hg
          have hrestnil : rest = [] := by
            cases hr : rest with
            | nil => rfl
            | cons b r =>
              rw [hr] at hgonil
              exact absurd hgonil (applyFixGo_ne_nil key rep optS hrep b r)
          subst hrestnil
          rw [hgonil] at h
          rw [List.getLast?_singleton] at h
          cases h
          exact hsl _ rfl

/-- One `gi` replacement pass preserves trimmed edges when its replacement is
a nonempty trimmed-edge literal. -/
theorem applyFix_trimmedEdges (key rep : Str) (optS : Bool) (hrep : rep ≠ [])
    (hre : trimmedEdges rep = true) (s : Str) (hs : trimmedEdges s = true) :
    trimmedEdges (applyFix key rep optS s) = true := by
  obtain ⟨hrh, hrl⟩ := (trimmedEdges_iff rep).mp hre
  obtain ⟨hsh, hsl⟩ := (trimmedEdges_iff s).mp hs
  rw [trimmedEdges_iff]
  exact ⟨applyFixGo_head key rep optS hrep hrh s hsh,
    applyFixGo_last key rep optS hrep hrl s 0 hsl⟩

/-- A fold of replacement passes with nonempty trimmed-edge replacements
preserves trimmed edges. -/
theorem foldl_applyFix_trimmedEdges : ∀ (pairs : List (Str × Str)) (s : Str),
    (∀ kv ∈ pairs, kv.2 ≠ [] ∧ trimmedEdges kv.2 = true) → trimmedEdges s = true →
    trimmedEdges (pairs.foldl (fun t kv => applyFix kv.1 kv.2 false t) s) = true := by
  intro pairs
  induction pairs with
  | nil => intro s _ hs; exact hs
  | cons kv rest ih =>
    intro s hall hs
    simp only [List.foldl_cons]
    exact ih _ (fun kv' hk => hall kv' (List.mem_cons_of_mem kv hk))
      (applyFix_trimmedEdges kv.1 kv.2 false (hall kv (List.mem_cons_self kv rest)).1
        (hall kv (List.mem_cons_self kv rest)).2 s hs)

/-- C10: `reconstructText` returns the empty string on empty input, and its
output never carries leading or trailing whitespace: the final
collapse-and-trim of step 6 is not undone by the literal word substitutions
of step 7, whose replacement words are letter-edged. -/
theorem c10_reconstruct_trimmed :
    reconstructText ([] : Str) = [] ∧ ∀ t : Str, trimmedEdges (reconstructText t) = true := by
  constructor
  · rfl
  · intro t
    by_cases ht : t = []
    · subst ht; rfl
    · unfold reconstructText
      rw [if_neg ht]
      exact foldl_applyFix_trimmedEdges commonWordsMap _ (by decide) (jsTrim_trimmedEdges _)

end ClimbMCP
